import Mathlib

/-!
Shallow embedding of the TrueType reader (src/TrueTypeFont.ts) and the
tessellation front-end (src/index.ts and the stencil-cover variant in
src/unnamed/part_002), with theorems checking the repository's
specification claims against the code.

Machine integers are modelled as ℕ/ℤ with explicit reductions where the
source relies on typed-array or DataView semantics; coordinates, which the
source keeps in IEEE floats but manipulates with exact-in-range integer
and dyadic arithmetic, are modelled as ℚ.
-/

/-- A table-directory record: byte offset and length of a table
(TableInfo in src/TrueTypeFont.ts). -/
structure TableInfo where
  offset : ℕ
  length : ℕ
deriving DecidableEq

/-- The font object after construction: the raw byte buffer (a total map from
byte address to stored byte, reduced mod 256 at each read) together with the
table directory produced by readTableDirectory. -/
structure Font where
  mem : ℕ → ℕ
  tables : List (String × TableInfo)

/-- DataView.getUint8. -/
def getU8 (f : Font) (a : ℕ) : ℕ := f.mem a % 256

/-- DataView.getUint16, big-endian. -/
def getU16 (f : Font) (a : ℕ) : ℕ := 256 * getU8 f a + getU8 f (a+1)

/-- DataView.getUint32, big-endian. -/
def getU32 (f : Font) (a : ℕ) : ℕ := 65536 * getU16 f a + getU16 f (a+2)

/-- DataView.getInt16, big-endian two's complement. -/
def getI16 (f : Font) (a : ℕ) : ℤ :=
  let v := getU16 f a
  if v < 32768 then (v : ℤ) else (v : ℤ) - 65536

/-- DataView.getInt8, two's complement. -/
def getI8 (f : Font) (a : ℕ) : ℤ :=
  let v := getU8 f a
  if v < 128 then (v : ℤ) else (v : ℤ) - 256

/-- getTable: the source throws when a tag is absent; the embedding returns
none in that case. -/
def getTable (f : Font) (tag : String) : Option TableInfo :=
  (f.tables.find? (fun p => p.1 == tag)).map (·.2)

/-- maxp.numGlyphs: u16 at maxp+4. -/
def numGlyphsF (f : Font) : Option ℕ :=
  (getTable f "maxp").map fun t => getU16 f (t.offset + 4)

/-- head.indexToLocFormat: i16 at head+50; 0 means short, anything else long.
Rendered as a Bool (true = short). -/
def locaIsShort (f : Font) : Option Bool :=
  (getTable f "head").map fun t => getI16 f (t.offset + 50) == 0

/-- ensureLoca: materialize numGlyphs+1 byte offsets into glyf.  Short-format
entries are the stored u16 times 2; long-format entries are the stored u32.
The source performs no validation of the resulting offsets. -/
def ensureLoca (f : Font) : Option (List ℕ) := do
  let loca ← getTable f "loca"
  let n ← numGlyphsF f
  let short ← locaIsShort f
  if short then
    pure ((List.range (n+1)).map fun i => getU16 f (loca.offset + 2*i) * 2)
  else
    pure ((List.range (n+1)).map fun i => getU32 f (loca.offset + 4*i))

/-- glyphRange: start/end byte addresses of glyph gid inside the buffer; the
source throws on an out-of-range gid, rendered as none. -/
def glyphRange (f : Font) (gid : ℕ) : Option (ℕ × ℕ) := do
  let n ← numGlyphsF f
  if gid < n then
    let glyf ← getTable f "glyf"
    let loca ← ensureLoca f
    pure (glyf.offset + loca.getD gid 0, glyf.offset + loca.getD (gid+1) 0)
  else none

/-- hhea.numberOfHMetrics: u16 at hhea+34. -/
def numberOfHMetrics (f : Font) : Option ℕ :=
  (getTable f "hhea").map fun t => getU16 f (t.offset + 34)

/-- ensureHmtx: the advance array (length numberOfHMetrics) and the lsb array
(length numGlyphs); after the paired records only lsbs are stored. -/
def ensureHmtx (f : Font) : Option (List ℕ × List ℤ) := do
  let hmtx ← getTable f "hmtx"
  let nH ← numberOfHMetrics f
  let nG ← numGlyphsF f
  let advance := (List.range nH).map fun i => getU16 f (hmtx.offset + 4*i)
  let lsb := (List.range nG).map fun i =>
    if i < nH then getI16 f (hmtx.offset + 4*i + 2)
    else getI16 f (hmtx.offset + 4*nH + 2*(i - nH))
  pure (advance, lsb)

/-- getHMetric: advance width, saturating to the last stored advance for
gid ≥ numberOfHMetrics, paired with the left side bearing. -/
def getHMetric (f : Font) (gid : ℕ) : Option (ℕ × ℤ) := do
  let nH ← numberOfHMetrics f
  let hm ← ensureHmtx f
  let adv := if gid < nH then hm.1.getD gid 0 else hm.1.getD (nH - 1) 0
  pure (adv, hm.2.getD gid 0)

/-- A font whose hmtx stores a single advance (7) for two glyphs; used to
instantiate the hmtx saturation theorem. -/
def hmtxFont : Font where
  mem := fun a => if a = 35 then 1 else if a = 85 then 2 else if a = 41 then 7 else 0
  tables := [("hhea", ⟨0, 36⟩), ("maxp", ⟨80, 6⟩), ("hmtx", ⟨40, 6⟩)]

/-- A font with one glyph and a short loca whose two offsets are 4 and 0,
i.e. strictly decreasing; used against the loca-validation claim. -/
def locaFont : Font where
  mem := fun a => if a = 5 then 1 else if a = 61 then 2 else 0
  tables := [("maxp", ⟨0, 6⟩), ("head", ⟨0, 54⟩), ("loca", ⟨60, 4⟩)]

/-- A located format-12 cmap subtable: subtable base address and group count,
as cached by ensureCmap. -/
structure Cmap12 where
  sub : ℕ
  nGroups : ℕ
deriving DecidableEq

/-- A located format-4 cmap subtable: subtable base address, segment count and
the base addresses of its four parallel arrays, as cached by ensureCmap. -/
structure Cmap4 where
  sub : ℕ
  segCount : ℕ
  endCode : ℕ
  startCode : ℕ
  idDelta : ℕ
  idRangeOff : ℕ
deriving DecidableEq

/-- The loop body of ensureCmap: walk the encoding records, remembering the
first format-12 and the first format-4 subtable encountered. -/
def cmapScanGo (f : Font) (base : ℕ) :
    ℕ → ℕ → Option Cmap12 × Option Cmap4 → Option Cmap12 × Option Cmap4
  | 0, _, acc => acc
  | k+1, i, (c12, c4) =>
    let recA := base + 4 + i*8
    let subOff := getU32 f (recA + 4)
    let sub := base + subOff
    let fmt := getU16 f sub
    if fmt = 12 ∧ c12 = none then
      cmapScanGo f base k (i+1) (some ⟨sub, getU32 f (sub + 12)⟩, c4)
    else if fmt = 4 ∧ c4 = none then
      let segCount := getU16 f (sub + 6) / 2
      let endCode := sub + 14
      let startCode := endCode + segCount*2 + 2
      let idDelta := startCode + segCount*2
      let idRangeOff := idDelta + segCount*2
      cmapScanGo f base k (i+1) (c12, some ⟨sub, segCount, endCode, startCode, idDelta, idRangeOff⟩)
    else cmapScanGo f base k (i+1) (c12, c4)

/-- ensureCmap: locate the first format-12 and format-4 subtables (none, none
when the cmap table is absent — the source would throw earlier in that case). -/
def cmapScan (f : Font) : Option Cmap12 × Option Cmap4 :=
  match getTable f "cmap" with
  | none => (none, none)
  | some t =>
    let numTables := getU16 f (t.offset + 2)
    cmapScanGo f t.offset numTables 0 (none, none)

/-- The format-12 binary-search loop of mapCharToGlyph.  The explicit budget
only bounds the iteration count; the loop shrinks the interval every step, so
any budget above the interval length reproduces the source loop.  some g is
the early return on a hit; none means the loop fell through with lo > hi. -/
def cmap12SearchGo (f : Font) (sub : ℕ) (cp : ℕ) : ℕ → ℤ → ℤ → Option ℕ
  | 0, _, _ => none
  | fuel+1, lo, hi =>
    if lo ≤ hi then
      let mid := (lo + hi) / 2
      let g := sub + 16 + 12 * mid.toNat
      let startChar := getU32 f g
      let endChar := getU32 f (g + 4)
      let startGid := getU32 f (g + 8)
      if cp < startChar then cmap12SearchGo f sub cp fuel lo (mid - 1)
      else if endChar < cp then cmap12SearchGo f sub cp fuel (mid + 1) hi
      else some (startGid + (cp - startChar))
    else none

/-- The format-12 search over a located subtable, budgeted above the group
count as the loop can iterate at most nGroups + 1 times. -/
def cmap12Search (f : Font) (c : Cmap12) (cp : ℕ) : Option ℕ :=
  cmap12SearchGo f c.sub cp (c.nGroups + 2) 0 ((c.nGroups : ℤ) - 1)

/-- The format-4 segment binary search of mapCharToGlyph: smallest index whose
endCode is ≥ cp, returned as the final value of lo. -/
def cmap4SearchGo (f : Font) (endCode : ℕ) (cp : ℕ) : ℕ → ℤ → ℤ → ℤ
  | 0, lo, _ => lo
  | fuel+1, lo, hi =>
    if lo ≤ hi then
      let mid := (lo + hi) / 2
      let e := getU16 f (endCode + 2 * mid.toNat)
      if e < cp then cmap4SearchGo f endCode cp fuel (mid + 1) hi
      else cmap4SearchGo f endCode cp fuel lo (mid - 1)
    else lo

/-- The format-4 arm of mapCharToGlyph: segment search, then idDelta/idRange
resolution; all gid arithmetic wraps modulo 2^16 as the source masks with
0xffff. -/
def cmap4Lookup (f : Font) (c : Cmap4) (cp : ℕ) : ℕ :=
  let i := (cmap4SearchGo f c.endCode cp (c.segCount + 2) 0 ((c.segCount : ℤ) - 1)).toNat
  if c.segCount ≤ i then 0
  else
    let start := getU16 f (c.startCode + 2*i)
    if cp < start then 0
    else
      let delta := getI16 f (c.idDelta + 2*i)
      let rangeOffset := getU16 f (c.idRangeOff + 2*i)
      if rangeOffset = 0 then (((cp : ℤ) + delta) % 65536).toNat
      else
        let roff := c.idRangeOff + 2*i
        let idx := roff + rangeOffset + (cp - start) * 2
        let gid := getU16 f idx
        if gid = 0 then 0 else (((gid : ℤ) + delta) % 65536).toNat

/-- mapCharToGlyph: try the format-12 subtable first; when its binary search
falls through — or when no format-12 subtable exists — consult the format-4
subtable; otherwise return 0.  none models the throw on a missing cmap table. -/
def mapCharToGlyph (f : Font) (cp : ℕ) : Option ℕ := do
  let _ ← getTable f "cmap"
  let scan := cmapScan f
  let fmt4 : ℕ := match scan.2 with
    | some c => cmap4Lookup f c cp
    | none => 0
  match scan.1 with
  | some c =>
    match cmap12Search f c cp with
    | some g => pure g
    | none => pure fmt4
  | none => pure fmt4

/-- startChar of group k of a format-12 subtable. -/
def grpStart (f : Font) (c : Cmap12) (k : ℕ) : ℕ := getU32 f (c.sub + 16 + 12 * k)

/-- endChar of group k of a format-12 subtable. -/
def grpEnd (f : Font) (c : Cmap12) (k : ℕ) : ℕ := getU32 f (c.sub + 16 + 12 * k + 4)

/-- startGlyphId of group k of a format-12 subtable. -/
def grpGid (f : Font) (c : Cmap12) (k : ℕ) : ℕ := getU32 f (c.sub + 16 + 12 * k + 8)

/-- The format-12 well-formedness from the spec data model: groups are
internally consistent and sorted with non-overlapping, increasing ranges. -/
def Cmap12Sorted (f : Font) (c : Cmap12) : Prop :=
  (∀ k, k < c.nGroups → grpStart f c k ≤ grpEnd f c k) ∧
  (∀ j k, j < k → k < c.nGroups → grpEnd f c j < grpStart f c k)

/-- A font with a format-12 subtable (one group 65..65 → gid 1) and a
format-4 subtable (segment 66..66 with idDelta −61, plus the 0xFFFF
sentinel), laid out at cmap offset 0. -/
def cmapFont : Font where
  mem := fun a =>
    if a = 3 then 2 else if a = 11 then 32 else if a = 19 then 64
    else if a = 33 then 12 else if a = 47 then 1
    else if a = 51 then 65 else if a = 55 then 65 else if a = 59 then 1
    else if a = 65 then 4 else if a = 71 then 4
    else if a = 79 then 66 else if a = 80 then 255 else if a = 81 then 255
    else if a = 85 then 66 else if a = 86 then 255 else if a = 87 then 255
    else if a = 88 then 255 else if a = 89 then 195 else if a = 91 then 1
    else 0
  tables := [("cmap", ⟨0, 96⟩)]

/-- MAX_SUBDIVISION_DEPTH from src/index.ts (12; part_002 uses the same
value). -/
def MAX_SUBDIVISION_DEPTH : ℕ := 12

/-- The comparison pointLineDistance(px,py,x0,y0,x1,y1) ≤ tol of the source,
expressed without square roots by comparing squares: over exact arithmetic
the distance is |cross|/√len2 (or |p − p0| when the chord is degenerate),
which is ≤ tol exactly when tol is nonnegative and the squared comparison
holds.  The len2 = 0 branch mirrors the source's early return. -/
def pointLineDistLE (px py x0 y0 x1 y1 tol : ℚ) : Bool :=
  let dx := x1 - x0
  let dy := y1 - y0
  let len2 := dx*dx + dy*dy
  if len2 = 0 then decide (0 ≤ tol ∧ (px-x0)^2 + (py-y0)^2 ≤ tol^2)
  else decide (0 ≤ tol ∧ ((px-x0)*dy - (py-y0)*dx)^2 ≤ tol^2 * len2)

/-- splitQuad: de Casteljau split of a quadratic at t = 0.5; of the source's
five returned points only the three new ones (p01, p012, p12) are kept, the
endpoints being passed through unchanged at the call sites. -/
def splitQuad (p0 p1 p2 : ℚ × ℚ) : (ℚ × ℚ) × (ℚ × ℚ) × (ℚ × ℚ) :=
  let p01 : ℚ × ℚ := ((p0.1 + p1.1) / 2, (p0.2 + p1.2) / 2)
  let p12 : ℚ × ℚ := ((p1.1 + p2.1) / 2, (p1.2 + p2.2) / 2)
  let p012 : ℚ × ℚ := ((p01.1 + p12.1) / 2, (p01.2 + p12.2) / 2)
  (p01, p012, p12)

/-- quadBezierAdaptive with the source's up-counting depth replaced by the
remaining budget gas = MAX_SUBDIVISION_DEPTH + 1 − depth, making the
recursion structural: gas = 0 is exactly the source's
depth > MAX_SUBDIVISION_DEPTH guard.  Returns the list of points the source
pushes onto its out array. -/
def quadBezierGo (tol : ℚ) : ℕ → (ℚ × ℚ) → (ℚ × ℚ) → (ℚ × ℚ) → List (ℚ × ℚ)
  | 0, _, _, p2 => [p2]
  | gas+1, p0, p1, p2 =>
    if pointLineDistLE p1.1 p1.2 p0.1 p0.2 p2.1 p2.2 tol then [p2]
    else
      let s := splitQuad p0 p1 p2
      quadBezierGo tol gas p0 s.1 s.2.1 ++ quadBezierGo tol gas s.2.1 s.2.2 p2

/-- quadBezierAdaptive entered at depth 0 (budget MAX_SUBDIVISION_DEPTH + 1). -/
def quadBezierAdaptive (p0 p1 p2 : ℚ × ℚ) (tol : ℚ) : List (ℚ × ℚ) :=
  quadBezierGo tol (MAX_SUBDIVISION_DEPTH + 1) p0 p1 p2

/-- Twice the signed area of (p0, p1, p2): the control point lies on the chord
line exactly when this vanishes. -/
def quadCross (p0 p1 p2 : ℚ × ℚ) : ℚ :=
  (p1.1 - p0.1) * (p2.2 - p0.2) - (p1.2 - p0.2) * (p2.1 - p0.1)

/-- The translation resolution of readCompoundOutline for a parsed component:
with ArgsAreXY the args are the offset; otherwise arg1 indexes the referenced
component's untransformed points and arg2 the already-assembled parent
points, both clamped with max(0, min(len − 1, arg)), and the translation
aligns the matrix-transformed component point with the parent point, the
latter being (0, 0) while nothing is assembled yet. -/
def resolveCompTranslation (flags : ℕ) (arg1 arg2 : ℤ) (a b c d : ℚ)
    (subPts assembledPts : List (ℚ × ℚ)) : ℚ × ℚ :=
  if flags &&& 0x0002 ≠ 0 then ((arg1 : ℚ), (arg2 : ℚ))
  else
    let idx1 := (max 0 (min ((subPts.length : ℤ) - 1) arg1)).toNat
    let idx2 := (max 0 (min ((assembledPts.length : ℤ) - 1) arg2)).toNat
    let l := subPts.getD idx1 (0, 0)
    let tx := a * l.1 + b * l.2
    let ty := c * l.1 + d * l.2
    let X := if assembledPts.length ≠ 0 then (assembledPts.getD idx2 (0, 0)).1 else 0
    let Y := if assembledPts.length ≠ 0 then (assembledPts.getD idx2 (0, 0)).2 else 0
    (X - tx, Y - ty)

/-- Index saturation as worded by the spec: out-of-range indices move to the
nearest valid index. -/
def clampIndexSpec (i : ℤ) (len : ℕ) : ℕ :=
  if i < 0 then 0 else if (len : ℤ) ≤ i then len - 1 else i.toNat

/-- The spec's wording of the point-alignment mode: component point fetched at
the saturated arg1, transformed by the 2×2 matrix without translation; parent
point fetched at the saturated arg2, or (0, 0) when the parent has no
assembled points yet; translation is their difference. -/
def alignTranslationSpec (arg1 arg2 : ℤ) (a b c d : ℚ)
    (subPts assembledPts : List (ℚ × ℚ)) : ℚ × ℚ :=
  let l := subPts.getD (clampIndexSpec arg1 subPts.length) (0, 0)
  let tx := a * l.1 + b * l.2
  let ty := c * l.1 + d * l.2
  let P : ℚ × ℚ :=
    if assembledPts = [] then (0, 0)
    else assembledPts.getD (clampIndexSpec arg2 assembledPts.length) (0, 0)
  (P.1 - tx, P.2 - ty)

/-- One contour of the line-list builder, the pairs (i, i+1): n counts the
remaining loop iterations (i running from s while i < end). -/
def lineSegN (s : ℕ) : ℕ → List ℕ
  | 0 => []
  | n+1 => s :: (s+1) :: lineSegN (s+1) n

/-- makeLineListIndices (src/index.ts:357-369): per contour the pairs
(i, i+1) for i ∈ [start, end) followed by the closing pair (end, start),
with the next contour starting at end + 1. -/
def makeLineListGo : ℕ → List ℕ → List ℕ
  | _, [] => []
  | start, e :: rest => lineSegN start (e - start) ++ [e, start] ++ makeLineListGo (e+1) rest

/-- makeLineListIndices entered with start = 0. -/
def makeLineListIndices (ends : List ℕ) : List ℕ := makeLineListGo 0 ends

/-- Consecutive disjoint pairs of a flat index list: the edges it encodes
under line-list topology. -/
def toPairs : List ℕ → List (ℕ × ℕ)
  | a :: b :: t => (a, b) :: toPairs t
  | _ => []

/-- The claim's edge list for one contour [s, e]: pairs (i, i+1) for
i ∈ [s, e), n counting the members of [s, e). -/
def pairSegN (s : ℕ) : ℕ → List (ℕ × ℕ)
  | 0 => []
  | n+1 => (s, s+1) :: pairSegN (s+1) n

/-- The claim's wording of the emitted edges: for every contour k in order,
the pairs (i, i+1) over [s_k, e_k) and then the closing pair (e_k, s_k),
with s_0 = 0 and each following start one past the previous end. -/
def lineListSpecGo : ℕ → List ℕ → List (ℕ × ℕ)
  | _, [] => []
  | s, e :: rest => pairSegN s (e - s) ++ [(e, s)] ++ lineListSpecGo (e+1) rest

/-- The claim's edge list with the initial contour start 0. -/
def lineListSpec (ends : List ℕ) : List (ℕ × ℕ) := lineListSpecGo 0 ends

/-- The implicit start of contour k (s_0 = 0, s_{k+1} = e_k + 1). -/
def contourStart (ends : List ℕ) (k : ℕ) : ℕ :=
  if k = 0 then 0 else ends.getD (k-1) 0 + 1

/-- Signed 16-bit wrap-around, the conversion performed by every store into
an Int16Array. -/
def wrap16 (z : ℤ) : ℤ := (z + 32768) % 65536 - 32768

/-- The Outline value of src/TrueTypeFont.ts: flat coordinates become a list
of point pairs, onCurve a list of booleans, contour end indices a list. -/
structure Outline where
  points : List (ℚ × ℚ)
  onCurve : List Bool
  contours : List ℕ
deriving DecidableEq

/-- The flag-stream loop of readSimpleOutline, made structural by consuming
one point slot per step: the third argument counts pending REPEAT copies of
the fourth argument (the loop `for r < rep && i+1 < numPoints` caps the
copies at the remaining slots).  Returns the flags and the position after
the stream. -/
def readFlagsGo (f : Font) : ℕ → ℕ → ℕ → ℕ → List ℕ × ℕ
  | 0, p, _, _ => ([], p)
  | r+1, p, 0, _ =>
    let fl := getU8 f p
    if fl &&& 0x08 ≠ 0 then
      let rep := getU8 f (p+1)
      let rest := readFlagsGo f r (p+2) rep fl
      (fl :: rest.1, rest.2)
    else
      let rest := readFlagsGo f r (p+1) 0 0
      (fl :: rest.1, rest.2)
  | r+1, p, c+1, fl =>
    let rest := readFlagsGo f r p c fl
    (fl :: rest.1, rest.2)

/-- The coordinate-delta loop of readSimpleOutline (X with bits 0x02/0x10,
Y with bits 0x04/0x20): per flag, a u8 magnitude signed by the sign bit, or
an unchanged value when only the sign bit is set, or an i16 delta; every
store into the Int16Array wraps to signed 16 bits.  Returns the decoded
values and the position after the stream. -/
def readCoords (f : Font) (byteBit signBit : ℕ) : List ℕ → ℕ → ℤ → List ℤ × ℕ
  | [], p, _ => ([], p)
  | fl :: rest, p, prev =>
    if fl &&& byteBit ≠ 0 then
      let d := (getU8 f p : ℤ)
      let v := wrap16 (prev + (if fl &&& signBit ≠ 0 then d else -d))
      let r := readCoords f byteBit signBit rest (p+1) v
      (v :: r.1, r.2)
    else if fl &&& signBit = 0 then
      let d := getI16 f p
      let v := wrap16 (prev + d)
      let r := readCoords f byteBit signBit rest (p+2) v
      (v :: r.1, r.2)
    else
      let v := prev
      let r := readCoords f byteBit signBit rest p v
      (v :: r.1, r.2)

/-- readSimpleOutline (src/TrueTypeFont.ts:317-383): contour ends, flag
stream with repeats, delta-decoded X then Y streams, on-curve bit 0x01. -/
def readSimpleOutline (f : Font) (gStart : ℕ) : Outline :=
  let numContours := (getI16 f gStart).toNat
  let p0 := gStart + 2 + 8
  let endPts := (List.range numContours).map fun i => getU16 f (p0 + 2*i)
  let p1 := p0 + 2*numContours
  let numPoints := (endPts.getLast?.getD 0) + 1
  let instructionLength := getU16 f p1
  let p2 := p1 + 2 + instructionLength
  let fl := readFlagsGo f numPoints p2 0 0
  let xs := readCoords f 0x02 0x10 fl.1 fl.2 0
  let ys := readCoords f 0x04 0x20 fl.1 xs.2 0
  { points := List.zipWith (fun (x y : ℤ) => ((x : ℚ), (y : ℚ))) xs.1 ys.1
    onCurve := fl.1.map (fun b => decide (b &&& 0x01 ≠ 0))
    contours := endPts }

/-- The claim's per-point delta rule, as a standalone list over the same byte
traversal: bit byteBit selects a u8 magnitude signed by signBit; signBit
alone means delta 0; otherwise an i16 delta. -/
def deltaListSpec (f : Font) (byteBit signBit : ℕ) : List ℕ → ℕ → List ℤ
  | [], _ => []
  | fl :: rest, p =>
    if fl &&& byteBit ≠ 0 then
      (if fl &&& signBit ≠ 0 then (getU8 f p : ℤ) else -(getU8 f p : ℤ)) ::
        deltaListSpec f byteBit signBit rest (p+1)
    else if fl &&& signBit = 0 then
      getI16 f p :: deltaListSpec f byteBit signBit rest (p+2)
    else
      0 :: deltaListSpec f byteBit signBit rest p

/-- A buffer holding one simple glyph at offset 0: one contour, two on-curve
points, X deltas 30000 and 30000 (each an i16), Y deltas 0. -/
def c6Font : Font where
  mem := fun a =>
    if a = 1 then 1 else if a = 11 then 1
    else if a = 14 then 1 else if a = 15 then 1
    else if a = 16 then 117 else if a = 17 then 48
    else if a = 18 then 117 else if a = 19 then 48
    else 0
  tables := []

/-- F2Dot14: signed 16-bit fixed point over 16384. -/
def f2dot14 (v : ℤ) : ℚ := (v : ℚ) / 16384

/-- The empty outline returned for blank glyphs. -/
def emptyOutline : Outline := ⟨[], [], []⟩

/-- The component do-while loop of readCompoundOutline.  decodeSub is the
recursive getGlyphOutline call at one less stack budget; loopFuel bounds the
iteration count (in the source the loop is bounded only by the finite byte
buffer, which this total model lacks).  The accumulators carry the assembled
points, on-curve flags and shifted contour ends; flag 0x0001 selects word
args, 0x0008/0x0040/0x0080 the scale forms, 0x0020 continues the loop. -/
def readComponentsAux (f : Font) (decodeSub : ℕ → Option Outline) :
    ℕ → ℕ → List (ℚ × ℚ) → List Bool → List ℕ → Option Outline
  | 0, _, _, _, _ => none
  | l+1, p0, accPts, accOn, accEnds =>
    let flags := getU16 f p0
    let compGid := getU16 f (p0+2)
    let p1 := p0 + 4
    let args : ℤ × ℤ × ℕ :=
      if flags &&& 0x0001 ≠ 0 then (getI16 f p1, getI16 f (p1+2), p1 + 4)
      else (getI8 f p1, getI8 f (p1+1), p1 + 2)
    let arg1 := args.1
    let arg2 := args.2.1
    let p2 := args.2.2
    let mtx : ℚ × ℚ × ℚ × ℚ × ℕ :=
      if flags &&& 0x0008 ≠ 0 then
        (f2dot14 (getI16 f p2), 0, 0, f2dot14 (getI16 f p2), p2 + 2)
      else if flags &&& 0x0040 ≠ 0 then
        (f2dot14 (getI16 f p2), 0, 0, f2dot14 (getI16 f (p2+2)), p2 + 4)
      else if flags &&& 0x0080 ≠ 0 then
        (f2dot14 (getI16 f p2), f2dot14 (getI16 f (p2+2)),
         f2dot14 (getI16 f (p2+4)), f2dot14 (getI16 f (p2+6)), p2 + 8)
      else (1, 0, 0, 1, p2)
    let a := mtx.1
    let b := mtx.2.1
    let c := mtx.2.2.1
    let d := mtx.2.2.2.1
    let p3 := mtx.2.2.2.2
    match decodeSub compGid with
    | none => none
    | some sub =>
      let t := resolveCompTranslation flags arg1 arg2 a b c d sub.points accPts
      let trPts := sub.points.map fun q => (a * q.1 + b * q.2 + t.1, c * q.1 + d * q.2 + t.2)
      let offsetPoints := accPts.length
      let trEnds := sub.contours.map (· + offsetPoints)
      if flags &&& 0x0020 ≠ 0 then
        readComponentsAux f decodeSub l p3 (accPts ++ trPts) (accOn ++ sub.onCurve)
          (accEnds ++ trEnds)
      else
        some ⟨accPts ++ trPts, accOn ++ sub.onCurve, accEnds ++ trEnds⟩

/-- readCompoundOutline (src/TrueTypeFont.ts:386-532): guard on numContours,
then the component loop starting after the 10-byte header.  The trailing
instruction skip does not affect the returned outline. -/
def readCompoundOutline (f : Font) (decodeSub : ℕ → Option Outline)
    (gStart : ℕ) (loopFuel : ℕ) : Option Outline :=
  let numContours := getI16 f gStart
  if 0 ≤ numContours then some (readSimpleOutline f gStart)
  else readComponentsAux f decodeSub loopFuel (gStart + 10) [] [] []

/-- getGlyphOutline (src/TrueTypeFont.ts:290-309) without its memo cache: the
cache is written only after a decode completes, so it cannot change any
single decode's result (and in particular cannot break a component cycle).
The JS call stack is modelled by a budget consumed at each recursive
component decode; at budget 0 a decode cannot recurse further, which is the
stack overflow of the source on cyclic component graphs. -/
def getGlyphOutlineF (f : Font) : ℕ → ℕ → Option Outline
  | 0, _ => none
  | fuel+1, gid =>
    match glyphRange f gid with
    | none => none
    | some r =>
      if r.1 = r.2 then some emptyOutline
      else
        let nc := getI16 f r.1
        if 0 < nc then some (readSimpleOutline f r.1)
        else if nc < 0 then readCompoundOutline f (getGlyphOutlineF f fuel) r.1 (fuel+1)
        else some emptyOutline

/-- A font whose single glyph is a compound glyph whose only component
references gid 0 itself (ArgsAreXY, args 0/0, identity transform, no
further components). -/
def cyclicFont : Font where
  mem := fun a =>
    if a = 5 then 1 else if a = 63 then 8
    else if a = 64 then 255 else if a = 65 then 255
    else if a = 75 then 2 else 0
  tables := [("maxp", ⟨0, 6⟩), ("head", ⟨0, 54⟩), ("loca", ⟨60, 4⟩), ("glyf", ⟨64, 16⟩)]

/-- A font whose single glyph has an empty loca range (both offsets 0). -/
def c7Font : Font where
  mem := fun a => if a = 5 then 1 else 0
  tables := [("maxp", ⟨0, 6⟩), ("head", ⟨0, 54⟩), ("loca", ⟨60, 4⟩), ("glyf", ⟨80, 0⟩)]

/-- The Point record of the tessellator: coordinates plus the on-curve flag
(the source's field `on`, renamed as Lean reserves that token). -/
structure FPoint where
  x : ℚ
  y : ℚ
  onc : Bool
deriving DecidableEq

/-- The cyclic accessor get(i) over one contour [start, start+count): the JS
double modulo ((i % count + count) % count), with coordinates defaulting to
0 (P[idx*2] || 0) and flags to off-curve (ON[idx] !== 0) past the arrays. -/
def getCyc (pts : List (ℚ × ℚ)) (onC : List Bool) (start count : ℕ) (i : ℤ) : FPoint :=
  let idx := ((start : ℤ) + ((i % (count : ℤ) + count) % count)).toNat
  { x := (pts.getD idx (0, 0)).1
    y := (pts.getD idx (0, 0)).2
    onc := onC.getD idx false }

/-- The segment walk of outlineToPolylineTTF (the for i in 1..count loop):
rem counts the remaining iterations; on→on pushes a line endpoint, on→off
flattens a quadratic whose endpoint is the following on-curve point (which
consumes an extra iteration) or the implicit midpoint of two off-curve
points.  Returns the points pushed. -/
def contourLoop (tol : ℚ) (get : ℤ → FPoint) : ℕ → ℤ → FPoint → List (ℚ × ℚ)
  | 0, _, _ => []
  | rem+1, i, prev =>
    let curr := get i
    if prev.onc ∧ curr.onc then
      (curr.x, curr.y) :: contourLoop tol get rem (i+1) curr
    else if prev.onc ∧ ¬curr.onc then
      let next := get (i+1)
      if next.onc then
        quadBezierAdaptive (prev.x, prev.y) (curr.x, curr.y) (next.x, next.y) tol ++
          (match rem with
           | 0 => []
           | r+1 => contourLoop tol get r (i+2) ⟨next.x, next.y, true⟩)
      else
        let endPt : FPoint := ⟨(curr.x + next.x) / 2, (curr.y + next.y) / 2, true⟩
        quadBezierAdaptive (prev.x, prev.y) (curr.x, curr.y) (endPt.x, endPt.y) tol ++
          contourLoop tol get rem (i+1) endPt
    else
      contourLoop tol get rem (i+1) prev

/-- One contour of outlineToPolylineTTF: implicit-start synthesis when the
first point is off-curve, the initial push, then the walk. -/
def flattenContour (tol : ℚ) (pts : List (ℚ × ℚ)) (onC : List Bool)
    (start count : ℕ) : List (ℚ × ℚ) :=
  let get := getCyc pts onC start count
  let p0 := get 0
  let prev : FPoint :=
    if p0.onc then p0
    else
      let last := get ((count : ℤ) - 1)
      if last.onc then ⟨last.x, last.y, last.onc⟩
      else ⟨(last.x + p0.x) / 2, (last.y + p0.y) / 2, true⟩
  (prev.x, prev.y) :: contourLoop tol get count 1 prev

/-- The polyline output: flattened points and recorded contour-end markers. -/
structure PolyOut where
  points : List (ℚ × ℚ)
  contours : List ℕ
deriving DecidableEq

/-- The contour fold of outlineToPolylineTTF, parameterized by the marker
threshold minPts (2 in src/index.ts line 337, 3 in the stencil-cover variant
src/unnamed/part_002 line 108): after flattening a contour, the marker
points.length − 1 is recorded only when the contour contributed at least
minPts points; the contour's vertices stay in the points array either way. -/
def flattenAll (tol : ℚ) (minPts : ℕ) (pts : List (ℚ × ℚ)) (onC : List Bool) :
    List ℕ → ℕ → List (ℚ × ℚ) → List ℕ → PolyOut
  | [], _, accPts, accEnds => ⟨accPts, accEnds⟩
  | e :: rest, start, accPts, accEnds =>
    let count := e + 1 - start
    let added := flattenContour tol pts onC start count
    let accPts2 := accPts ++ added
    let accEnds2 := if minPts ≤ added.length then accEnds ++ [accPts2.length - 1] else accEnds
    flattenAll tol minPts pts onC rest (e+1) accPts2 accEnds2

/-- outlineToPolylineTTF of src/index.ts: tolerance 0.75, threshold 2. -/
def outlineToPolylineTTF (o : Outline) : PolyOut :=
  flattenAll (3/4) 2 o.points o.onCurve o.contours 0 [] []

/-- outlineToPolylineTTF of src/unnamed/part_002 (the stencil-cover variant):
tolerance 0.5, threshold 3. -/
def outlineToPolylineSC (o : Outline) : PolyOut :=
  flattenAll (1/2) 3 o.points o.onCurve o.contours 0 [] []

/-- C8: for every gid with numberOfHMetrics ≤ gid < numGlyphs and
numberOfHMetrics ≥ 1, getHMetric(gid).advanceWidth equals
getHMetric(numberOfHMetrics − 1).advanceWidth. -/
theorem c8_hmetric_saturates (f : Font) (nH nG gid : ℕ)
    (hH : numberOfHMetrics f = some nH) (hG : numGlyphsF f = some nG)
    (h1 : 1 ≤ nH) (h2 : nH ≤ gid) (h3 : gid < nG)
    (hm : (getTable f "hmtx").isSome) :
    (getHMetric f gid).map Prod.fst = (getHMetric f (nH - 1)).map Prod.fst := by
  obtain ⟨t, ht⟩ := Option.isSome_iff_exists.mp hm
  simp only [getHMetric, ensureHmtx, ht, hH, hG, Option.bind_eq_bind,
    Option.some_bind, Option.map_some, Option.pure_def]
  have hlt : nH - 1 < nH := Nat.sub_lt h1 Nat.one_pos
  rw [if_neg (by omega), if_pos hlt]
  simp

/-- Closed instance of the hmtx saturation theorem: in hmtxFont, glyph 1 (which
has no stored advance) reports the same advance width as glyph 0. -/
theorem c8_hmetric_saturates_witness :
    (getHMetric hmtxFont 1).map Prod.fst = (getHMetric hmtxFont 0).map Prod.fst ∧
    (getHMetric hmtxFont 1).map Prod.fst = some 7 := by
  constructor
  · exact c8_hmetric_saturates hmtxFont 1 2 1 (by decide) (by decide)
      (by decide) (by decide) (by decide) (by decide)
  · decide

/-- C5 (amended): materializing loca always succeeds when the loca, maxp and
head tables are present, producing numGlyphs+1 offsets — the stored u16 times
2 in short format, the stored u32 in long format — with no monotonicity or
glyf-length validation. -/
theorem c5_loca_materialization (f : Font) (lt : TableInfo) (n : ℕ) (short : Bool)
    (hl : getTable f "loca" = some lt) (hn : numGlyphsF f = some n)
    (hs : locaIsShort f = some short) :
    ensureLoca f = some ((List.range (n+1)).map fun i =>
      if short then getU16 f (lt.offset + 2*i) * 2 else getU32 f (lt.offset + 4*i)) ∧
    ∀ L, ensureLoca f = some L → L.length = n + 1 := by
  have h : ensureLoca f = some ((List.range (n+1)).map fun i =>
      if short then getU16 f (lt.offset + 2*i) * 2 else getU32 f (lt.offset + 4*i)) := by
    simp only [ensureLoca, hl, hn, hs, Option.bind_eq_bind, Option.some_bind]
    cases short <;> simp
  refine ⟨h, fun L hL => ?_⟩
  rw [h] at hL
  cases hL
  simp

/-- Witness for the amended loca claim at a concrete font. -/
theorem c5_loca_materialization_witness :
    ensureLoca locaFont = some [4, 0] ∧ ∀ L, ensureLoca locaFont = some L → L.length = 2 := by
  have h := c5_loca_materialization locaFont ⟨60, 4⟩ 1 true (by decide) (by decide) (by decide)
  constructor
  · rw [h.1]; decide
  · have := h.2; simpa using this

/-- C5 counterexample: ensureLoca on a font whose stored loca offsets decode to
[4, 0] — not monotone non-decreasing — succeeds rather than failing, so the
code never raises LocaInconsistent. -/
theorem c5_no_loca_validation :
    ensureLoca locaFont = some [4, 0] ∧ ¬ ((4:ℕ) ≤ 0) := by
  constructor
  · decide
  · decide

/-- Start characters are monotone over a sorted format-12 subtable. -/
theorem grpStart_mono (f : Font) (c : Cmap12) (hs : Cmap12Sorted f c)
    {i j : ℕ} (hij : i ≤ j) (hj : j < c.nGroups) :
    grpStart f c i ≤ grpStart f c j := by
  rcases Nat.lt_or_ge i j with h | h
  · exact le_of_lt (lt_of_le_of_lt (hs.1 i (lt_trans h hj)) (hs.2 i j h hj))
  · have hij2 : i = j := le_antisymm hij h
    subst hij2; rfl

/-- End characters are monotone over a sorted format-12 subtable. -/
theorem grpEnd_mono (f : Font) (c : Cmap12) (hs : Cmap12Sorted f c)
    {i j : ℕ} (hij : i ≤ j) (hj : j < c.nGroups) :
    grpEnd f c i ≤ grpEnd f c j := by
  rcases Nat.lt_or_ge i j with h | h
  · exact le_of_lt (lt_of_lt_of_le (hs.2 i j h hj) (hs.1 j hj))
  · have hij2 : i = j := le_antisymm hij h
    subst hij2; rfl

/-- Over a sorted subtable the binary search returns the containing group's
mapping whenever that group lies inside the search window. -/
theorem cmap12SearchGo_hit (f : Font) (c : Cmap12) (cp k : ℕ)
    (hs : Cmap12Sorted f c) (hk : k < c.nGroups)
    (h1 : grpStart f c k ≤ cp) (h2 : cp ≤ grpEnd f c k) :
    ∀ fuel (lo hi : ℤ), 0 ≤ lo → lo ≤ (k : ℤ) → (k : ℤ) ≤ hi → hi < (c.nGroups : ℤ) →
      (hi + 1 - lo).toNat ≤ fuel →
      cmap12SearchGo f c.sub cp fuel lo hi =
        some (grpGid f c k + (cp - grpStart f c k)) := by
  intro fuel
  induction fuel with
  | zero => intro lo hi _ hlk hkh _ hf; omega
  | succ n ih =>
    intro lo hi h0 hlk hkh hhn hf
    have hlh : lo ≤ hi := le_trans hlk hkh
    have hm1 : lo ≤ (lo + hi) / 2 := by omega
    have hm2 : (lo + hi) / 2 ≤ hi := by omega
    simp only [cmap12SearchGo, if_pos hlh]
    set m : ℤ := (lo + hi) / 2 with hmdef
    have hmnn : (0:ℤ) ≤ m := le_trans h0 hm1
    have hmt : ((m.toNat : ℤ)) = m := Int.toNat_of_nonneg hmnn
    by_cases hA : cp < getU32 f (c.sub + 16 + 12 * m.toNat)
    · rw [if_pos hA]
      have hkm : (k:ℤ) < m := by
        by_contra hcon
        push_neg at hcon
        have hmono : grpStart f c m.toNat ≤ grpStart f c k :=
          grpStart_mono f c hs (by omega) hk
        exact absurd hA (not_lt.mpr (le_trans hmono h1))
      exact ih lo (m - 1) h0 hlk (by omega) (by omega) (by omega)
    · rw [if_neg hA]
      by_cases hB : getU32 f (c.sub + 16 + 12 * m.toNat + 4) < cp
      · rw [if_pos hB]
        have hkm : m < (k:ℤ) := by
          by_contra hcon
          push_neg at hcon
          have hmono : grpEnd f c k ≤ grpEnd f c m.toNat :=
            grpEnd_mono f c hs (by omega) (by omega)
          exact absurd hB (not_lt.mpr (le_trans h2 hmono))
        exact ih (m + 1) hi (by omega) (by omega) hkh hhn (by omega)
      · rw [if_neg hB]
        have hmk : m.toNat = k := by
          by_contra hne
          rcases Nat.lt_or_ge m.toNat k with h | h
          · have hso := hs.2 m.toNat k h hk
            have hcp : cp ≤ grpEnd f c m.toNat := not_lt.mp hB
            exact absurd (lt_of_le_of_lt hcp (lt_of_lt_of_le hso h1)) (lt_irrefl cp)
          · have hlt : k < m.toNat := lt_of_le_of_ne h (fun hh => hne hh.symm)
            have hso := hs.2 k m.toNat hlt (by omega)
            have hcp : grpStart f c m.toNat ≤ cp := not_lt.mp hA
            exact absurd h2 (not_le.mpr (lt_of_lt_of_le hso hcp))
        rw [hmk]
        rfl

/-- When no group contains the code point the binary search falls through. -/
theorem cmap12SearchGo_miss (f : Font) (c : Cmap12) (cp : ℕ)
    (hn : ∀ k, k < c.nGroups → ¬(grpStart f c k ≤ cp ∧ cp ≤ grpEnd f c k)) :
    ∀ fuel (lo hi : ℤ), 0 ≤ lo → hi < (c.nGroups : ℤ) →
      (hi + 1 - lo).toNat ≤ fuel →
      cmap12SearchGo f c.sub cp fuel lo hi = none := by
  intro fuel
  induction fuel with
  | zero => intro lo hi _ _ _; rfl
  | succ n ih =>
    intro lo hi h0 hhn hf
    by_cases hlh : lo ≤ hi
    · have hm1 : lo ≤ (lo + hi) / 2 := by omega
      have hm2 : (lo + hi) / 2 ≤ hi := by omega
      simp only [cmap12SearchGo, if_pos hlh]
      set m : ℤ := (lo + hi) / 2 with hmdef
      have hmnn : (0:ℤ) ≤ m := le_trans h0 hm1
      by_cases hA : cp < getU32 f (c.sub + 16 + 12 * m.toNat)
      · rw [if_pos hA]; exact ih lo (m - 1) h0 (by omega) (by omega)
      · rw [if_neg hA]
        by_cases hB : getU32 f (c.sub + 16 + 12 * m.toNat + 4) < cp
        · rw [if_pos hB]; exact ih (m + 1) hi (by omega) hhn (by omega)
        · exfalso
          have hkn : m.toNat < c.nGroups := by omega
          exact hn m.toNat hkn ⟨not_lt.mp hA, not_lt.mp hB⟩
    · simp only [cmap12SearchGo, if_neg hlh]

/-- The budgeted search equals the source loop: a containing group is found. -/
theorem cmap12Search_hit (f : Font) (c : Cmap12) (cp k : ℕ)
    (hs : Cmap12Sorted f c) (hk : k < c.nGroups)
    (h1 : grpStart f c k ≤ cp) (h2 : cp ≤ grpEnd f c k) :
    cmap12Search f c cp = some (grpGid f c k + (cp - grpStart f c k)) :=
  cmap12SearchGo_hit f c cp k hs hk h1 h2 (c.nGroups + 2) 0 ((c.nGroups : ℤ) - 1)
    le_rfl (by omega) (by omega) (by omega) (by omega)

/-- The budgeted search equals the source loop: no containing group, none. -/
theorem cmap12Search_miss (f : Font) (c : Cmap12) (cp : ℕ)
    (hn : ∀ k, k < c.nGroups → ¬(grpStart f c k ≤ cp ∧ cp ≤ grpEnd f c k)) :
    cmap12Search f c cp = none :=
  cmap12SearchGo_miss f c cp hn (c.nGroups + 2) 0 ((c.nGroups : ℤ) - 1)
    le_rfl (by omega) (by omega)

/-- C2 (amended): with a format-12 subtable present and sorted, a code point
inside some group resolves to startGid + (cp − startChar) from the format-12
search; a code point in no group falls through to the format-4 subtable when
one exists (0 otherwise), rather than returning 0 outright. -/
theorem c2_cmap12_precedence (f : Font) (c12 : Cmap12) (cp : ℕ)
    (hcm : (getTable f "cmap").isSome) (hc : (cmapScan f).1 = some c12)
    (hs : Cmap12Sorted f c12) :
    (∀ k, k < c12.nGroups → grpStart f c12 k ≤ cp → cp ≤ grpEnd f c12 k →
       mapCharToGlyph f cp = some (grpGid f c12 k + (cp - grpStart f c12 k))) ∧
    ((∀ k, k < c12.nGroups → ¬(grpStart f c12 k ≤ cp ∧ cp ≤ grpEnd f c12 k)) →
       mapCharToGlyph f cp = some (match (cmapScan f).2 with
         | some c4 => cmap4Lookup f c4 cp
         | none => 0)) := by
  obtain ⟨t, ht⟩ := Option.isSome_iff_exists.mp hcm
  constructor
  · intro k hk h1 h2
    have hhit := cmap12Search_hit f c12 cp k hs hk h1 h2
    simp [mapCharToGlyph, ht, hc, hhit]
  · intro hnone
    have hmiss := cmap12Search_miss f c12 cp hnone
    simp [mapCharToGlyph, ht, hc, hmiss]

/-- Closed instance of the amended cmap claim on cmapFont: code point 65 is in
the single format-12 group and maps to gid 1. -/
theorem c2_cmap12_precedence_witness :
    Cmap12Sorted cmapFont ⟨32, 1⟩ ∧ mapCharToGlyph cmapFont 65 = some 1 := by
  have hs : Cmap12Sorted cmapFont ⟨32, 1⟩ := by
    constructor
    · intro k hk
      have hk1 : k < 1 := hk
      have hk0 : k = 0 := by omega
      subst hk0; decide
    · intro j k hj hk
      have hk1 : k < 1 := hk
      omega
  refine ⟨hs, ?_⟩
  exact (c2_cmap12_precedence cmapFont ⟨32, 1⟩ 65 (by decide) (by decide) hs).1
    0 (by decide) (by decide) (by decide)

/-- C2 counterexample: cmapFont has a format-12 subtable, its binary search
misses code point 66, yet mapCharToGlyph returns gid 5 taken from the
format-4 subtable — so format 4 is consulted even though format 12 exists. -/
theorem c2_format4_fallback_counterexample :
    (cmapScan cmapFont).1 = some ⟨32, 1⟩ ∧
    cmap12Search cmapFont ⟨32, 1⟩ 66 = none ∧
    mapCharToGlyph cmapFont 66 = some 5 ∧ (5 : ℕ) ≠ 0 := by
  refine ⟨by decide, by decide, by decide, by decide⟩

/-- The subdivision pushes at least one point at any budget. -/
theorem quadBezierGo_length_pos (tol : ℚ) :
    ∀ gas p0 p1 p2, 1 ≤ (quadBezierGo tol gas p0 p1 p2).length := by
  intro gas
  induction gas with
  | zero => intro p0 p1 p2; simp [quadBezierGo]
  | succ n ih =>
    intro p0 p1 p2
    simp only [quadBezierGo]
    split
    · simp
    · rw [List.length_append]
      have h1 := ih p0 (splitQuad p0 p1 p2).1 (splitQuad p0 p1 p2).2.1
      omega

/-- The subdivision pushes at most 2^gas points at budget gas. -/
theorem quadBezierGo_length_le (tol : ℚ) :
    ∀ gas p0 p1 p2, (quadBezierGo tol gas p0 p1 p2).length ≤ 2 ^ gas := by
  intro gas
  induction gas with
  | zero => intro p0 p1 p2; simp [quadBezierGo]
  | succ n ih =>
    intro p0 p1 p2
    simp only [quadBezierGo]
    split
    · have : (1:ℕ) ≤ 2 ^ (n+1) := Nat.one_le_two_pow
      simpa using this
    · rw [List.length_append]
      have h1 := ih p0 (splitQuad p0 p1 p2).1 (splitQuad p0 p1 p2).2.1
      have h2 := ih (splitQuad p0 p1 p2).2.1 (splitQuad p0 p1 p2).2.2 p2
      have hp : 2 ^ (n+1) = 2 ^ n + 2 ^ n := by ring
      omega

/-- C4 (amended): for every quadratic segment and every tolerance, adaptive
flattening terminates (it is a total function) and emits at least one and at
most 2^13 = 8192 chords for a single curve: the source splits whenever
depth > 12 fails, so forced cut-off leaves sit at depth 13. -/
theorem c4_quad_adaptive_bounds (p0 p1 p2 : ℚ × ℚ) (tol : ℚ) :
    1 ≤ (quadBezierAdaptive p0 p1 p2 tol).length ∧
    (quadBezierAdaptive p0 p1 p2 tol).length ≤ 8192 := by
  refine ⟨quadBezierGo_length_pos tol _ p0 p1 p2, ?_⟩
  have h := quadBezierGo_length_le tol (MAX_SUBDIVISION_DEPTH + 1) p0 p1 p2
  simpa [MAX_SUBDIVISION_DEPTH] using h

/-- The cross of the left half after a split is one eighth of the original. -/
theorem quadCross_split_left (p0 p1 p2 : ℚ × ℚ) :
    quadCross p0 (splitQuad p0 p1 p2).1 (splitQuad p0 p1 p2).2.1 =
      quadCross p0 p1 p2 / 8 := by
  obtain ⟨x0, y0⟩ := p0
  obtain ⟨x1, y1⟩ := p1
  obtain ⟨x2, y2⟩ := p2
  simp only [quadCross, splitQuad]
  ring

/-- The cross of the right half after a split is one eighth of the original. -/
theorem quadCross_split_right (p0 p1 p2 : ℚ × ℚ) :
    quadCross (splitQuad p0 p1 p2).2.1 (splitQuad p0 p1 p2).2.2 p2 =
      quadCross p0 p1 p2 / 8 := by
  obtain ⟨x0, y0⟩ := p0
  obtain ⟨x1, y1⟩ := p1
  obtain ⟨x2, y2⟩ := p2
  simp only [quadCross, splitQuad]
  ring

/-- At tolerance 0, a segment whose control point is off the chord line never
satisfies the flatness test. -/
theorem distLE_zero_of_cross (p0 p1 p2 : ℚ × ℚ) (hc : quadCross p0 p1 p2 ≠ 0) :
    pointLineDistLE p1.1 p1.2 p0.1 p0.2 p2.1 p2.2 0 = false := by
  have hlen : ¬ ((p2.1 - p0.1) * (p2.1 - p0.1) + (p2.2 - p0.2) * (p2.2 - p0.2) = 0) := by
    intro h
    have h1 : p2.1 - p0.1 = 0 := by nlinarith [sq_nonneg (p2.1 - p0.1), sq_nonneg (p2.2 - p0.2)]
    have h2 : p2.2 - p0.2 = 0 := by nlinarith [sq_nonneg (p2.1 - p0.1), sq_nonneg (p2.2 - p0.2)]
    apply hc
    simp only [quadCross]
    rw [h1, h2]
    ring
  simp only [pointLineDistLE]
  rw [if_neg hlen]
  rw [decide_eq_false_iff_not]
  rintro ⟨-, hle⟩
  apply hc
  have hsq : quadCross p0 p1 p2 ^ 2 ≤ 0 := by
    simp only [quadCross]
    nlinarith [hle]
  nlinarith [sq_nonneg (quadCross p0 p1 p2)]

/-- With tolerance 0 and a genuinely curved segment, every node splits and the
tree is full: exactly 2^gas chords. -/
theorem quadBezierGo_full :
    ∀ gas p0 p1 p2, quadCross p0 p1 p2 ≠ 0 →
      (quadBezierGo 0 gas p0 p1 p2).length = 2 ^ gas := by
  intro gas
  induction gas with
  | zero => intro p0 p1 p2 _; simp [quadBezierGo]
  | succ n ih =>
    intro p0 p1 p2 hc
    have hfalse := distLE_zero_of_cross p0 p1 p2 hc
    simp only [quadBezierGo, hfalse, Bool.false_eq_true, if_false, List.length_append]
    have hl : quadCross p0 (splitQuad p0 p1 p2).1 (splitQuad p0 p1 p2).2.1 ≠ 0 := by
      rw [quadCross_split_left]
      exact div_ne_zero hc (by norm_num)
    have hr : quadCross (splitQuad p0 p1 p2).2.1 (splitQuad p0 p1 p2).2.2 p2 ≠ 0 := by
      rw [quadCross_split_right]
      exact div_ne_zero hc (by norm_num)
    rw [ih _ _ _ hl, ih _ _ _ hr]
    ring

/-- C4 counterexample: at tolerance 0 the curve (0,0)-(1,1)-(2,0) produces
8192 chords — more than the 4096 the claim allows. -/
theorem c4_chord_count_counterexample :
    4096 < (quadBezierAdaptive (0, 0) (1, 1) (2, 0) 0).length := by
  have hc : quadCross ((0:ℚ), (0:ℚ)) (1, 1) (2, 0) ≠ 0 := by
    simp only [quadCross]
    norm_num
  have h := quadBezierGo_full (MAX_SUBDIVISION_DEPTH + 1) (0, 0) (1, 1) (2, 0) hc
  have he : quadBezierAdaptive (0, 0) (1, 1) (2, 0) 0 =
      quadBezierGo 0 (MAX_SUBDIVISION_DEPTH + 1) (0, 0) (1, 1) (2, 0) := rfl
  rw [he, h]
  norm_num [MAX_SUBDIVISION_DEPTH]

/-- C3: in point-alignment mode (ArgsAreXY clear), the source's translation
resolution coincides with the spec's description: saturated indices, the
2×2-transformed component point against the assembled parent point, (0,0)
parent when nothing is assembled, difference as translation. -/
theorem c3_point_alignment (flags : ℕ) (arg1 arg2 : ℤ) (a b c d : ℚ)
    (subPts assembledPts : List (ℚ × ℚ))
    (hflag : flags &&& 0x0002 = 0) (hsub : subPts ≠ []) :
    resolveCompTranslation flags arg1 arg2 a b c d subPts assembledPts =
      alignTranslationSpec arg1 arg2 a b c d subPts assembledPts := by
  have hlen : 1 ≤ subPts.length := List.length_pos.mpr hsub
  simp only [resolveCompTranslation, alignTranslationSpec]
  rw [if_neg (by simp [hflag])]
  have hidx1 : (max 0 (min ((subPts.length : ℤ) - 1) arg1)).toNat =
      clampIndexSpec arg1 subPts.length := by
    simp only [clampIndexSpec]; split_ifs <;> omega
  rw [hidx1]
  by_cases hA : assembledPts = []
  · subst hA
    simp
  · have hlenA : 1 ≤ assembledPts.length := List.length_pos.mpr hA
    have hidx2 : (max 0 (min ((assembledPts.length : ℤ) - 1) arg2)).toNat =
        clampIndexSpec arg2 assembledPts.length := by
      simp only [clampIndexSpec]; split_ifs <;> omega
    rw [hidx2, if_neg hA, if_pos (show assembledPts.length ≠ 0 by omega),
      if_pos (show assembledPts.length ≠ 0 by omega)]

/-- Closed instance of the point-alignment theorem: arg1 = 5 saturates to
index 1, arg2 = −3 saturates to index 0, giving translation (7, 16). -/
theorem c3_point_alignment_witness :
    resolveCompTranslation 0 5 (-3) 1 0 0 1 [(1, 2), (3, 4)] [(10, 20)] =
      alignTranslationSpec 5 (-3) 1 0 0 1 [(1, 2), (3, 4)] [(10, 20)] ∧
    resolveCompTranslation 0 5 (-3) 1 0 0 1 [(1, 2), (3, 4)] [(10, 20)] = (7, 16) := by
  have happ := c3_point_alignment 0 5 (-3) 1 0 0 1 [(1, 2), (3, 4)] [(10, 20)]
    (by decide) (by decide)
  refine ⟨happ, ?_⟩
  rw [happ]
  with_unfolding_all decide

/-- Pairing a line-segment run prepends its (i, i+1) pairs. -/
theorem toPairs_lineSegN :
    ∀ n s rest, toPairs (lineSegN s n ++ rest) = pairSegN s n ++ toPairs rest := by
  intro n
  induction n with
  | zero => intro s rest; rfl
  | succ m ih =>
    intro s rest
    show (s, s+1) :: toPairs (lineSegN (s+1) m ++ rest) =
      (s, s+1) :: (pairSegN (s+1) m ++ toPairs rest)
    rw [ih]

/-- The flat index list of makeLineListIndices encodes exactly the edges the
claim describes, for any starting index. -/
theorem toPairs_makeLineListGo :
    ∀ (ends : List ℕ) (s : ℕ), toPairs (makeLineListGo s ends) = lineListSpecGo s ends := by
  intro ends
  induction ends with
  | nil => intro s; rfl
  | cons e rest ih =>
    intro s
    show toPairs (lineSegN s (e - s) ++ [e, s] ++ makeLineListGo (e+1) rest) = _
    rw [List.append_assoc, toPairs_lineSegN]
    show pairSegN s (e - s) ++ toPairs (e :: s :: makeLineListGo (e+1) rest) = _
    rw [toPairs, ih]
    show _ = pairSegN s (e - s) ++ [(e, s)] ++ lineListSpecGo (e+1) rest
    rw [List.append_assoc]
    rfl

/-- Every contour's closing edge appears in the claim's edge list. -/
theorem mem_lineListSpecGo (ends : List ℕ) :
    ∀ s k, k < ends.length →
      (ends.getD k 0, if k = 0 then s else ends.getD (k-1) 0 + 1) ∈ lineListSpecGo s ends := by
  induction ends with
  | nil => intro s k h; simp at h
  | cons e rest ih =>
    intro s k h
    cases k with
    | zero =>
      simp only [lineListSpecGo, List.getD_cons_zero, if_pos rfl]
      exact List.mem_append.mpr (Or.inl (List.mem_append.mpr (Or.inr (by simp))))
    | succ j =>
      simp only [lineListSpecGo]
      refine List.mem_append.mpr (Or.inr ?_)
      have hmem := ih (e+1) j (by simpa using h)
      cases j with
      | zero => simpa using hmem
      | succ i => simpa using hmem

/-- C9: for sorted contour-end markers, the line-list builder emits exactly
the pairs (i, i+1) over each contour followed by its closing pair, and hence
the edge set contains (e_k, s_k) for every contour k. -/
theorem c9_line_list_closes (ends : List ℕ) (hs : List.Pairwise (· < ·) ends) :
    toPairs (makeLineListIndices ends) = lineListSpec ends ∧
    ∀ k, k < ends.length →
      (ends.getD k 0, contourStart ends k) ∈ toPairs (makeLineListIndices ends) := by
  constructor
  · exact toPairs_makeLineListGo ends 0
  · intro k hk
    rw [makeLineListIndices, toPairs_makeLineListGo]
    have hmem := mem_lineListSpecGo ends 0 k hk
    simpa [contourStart] using hmem

/-- Closed instance of the line-list theorem on markers [2, 5]: the second
contour spans [3, 5] and its closing edge (5, 3) is emitted. -/
theorem c9_line_list_closes_witness :
    toPairs (makeLineListIndices [2, 5]) = lineListSpec [2, 5] ∧
    ((5 : ℕ), (3 : ℕ)) ∈ toPairs (makeLineListIndices [2, 5]) := by
  have h := c9_line_list_closes [2, 5] (by decide)
  exact ⟨h.1, h.2 1 (by decide)⟩

/-- Wrapping is idempotent. -/
theorem wrap16_idem (a : ℤ) : wrap16 (wrap16 a) = wrap16 a := by
  unfold wrap16; omega

/-- A wrapped summand can be unwrapped under an outer wrap. -/
theorem wrap16_add_left (a b : ℤ) : wrap16 (wrap16 a + b) = wrap16 (a + b) := by
  unfold wrap16; omega

/-- The delta-decoding loop computes, at each index, the wrapped cumulative
sum of the claim's per-point deltas added to the (already wrapped) start. -/
theorem readCoords_cumsum (f : Font) (byteBit signBit : ℕ) :
    ∀ (flags : List ℕ) (p : ℕ) (prev : ℤ), wrap16 prev = prev →
      ∀ i, i < flags.length →
        (readCoords f byteBit signBit flags p prev).1.getD i 0 =
          wrap16 (prev + ((deltaListSpec f byteBit signBit flags p).take (i+1)).sum) := by
  intro flags
  induction flags with
  | nil => intro p prev hprev i hi; simp at hi
  | cons fl rest ih =>
    intro p prev hprev i hi
    simp only [readCoords, deltaListSpec]
    by_cases hA : fl &&& byteBit ≠ 0
    · rw [if_pos hA, if_pos hA]
      cases i with
      | zero => simp
      | succ j =>
        rw [List.getD_cons_succ, List.take_succ_cons, List.sum_cons]
        rw [ih (p+1) _ (wrap16_idem _) j (by simpa using hi)]
        rw [wrap16_add_left, add_assoc]
    · rw [if_neg hA, if_neg hA]
      by_cases hB : fl &&& signBit = 0
      · rw [if_pos hB, if_pos hB]
        cases i with
        | zero => simp
        | succ j =>
          rw [List.getD_cons_succ, List.take_succ_cons, List.sum_cons]
          rw [ih (p+2) _ (wrap16_idem _) j (by simpa using hi)]
          rw [wrap16_add_left, add_assoc]
      · rw [if_neg hB, if_neg hB]
        cases i with
        | zero => simpa using hprev.symm
        | succ j =>
          rw [List.getD_cons_succ, List.take_succ_cons, List.sum_cons]
          rw [ih p prev hprev j (by simpa using hi)]
          rw [zero_add]

/-- C6 (amended): for every flag stream and stream start, the decoded X (bits
0x02/0x10) and Y (bits 0x04/0x20) coordinate of point i is the cumulative sum
of the claim's per-point deltas starting at 0, wrapped into the signed 16-bit
range by the Int16Array stores. -/
theorem c6_coordinate_decoding (f : Font) (flags : List ℕ) (p q : ℕ) (i : ℕ)
    (hi : i < flags.length) :
    (readCoords f 0x02 0x10 flags p 0).1.getD i 0 =
      wrap16 (((deltaListSpec f 0x02 0x10 flags p).take (i+1)).sum) ∧
    (readCoords f 0x04 0x20 flags q 0).1.getD i 0 =
      wrap16 (((deltaListSpec f 0x04 0x20 flags q).take (i+1)).sum) := by
  constructor
  · have h := readCoords_cumsum f 0x02 0x10 flags p 0 (by decide) i hi
    simpa using h
  · have h := readCoords_cumsum f 0x04 0x20 flags q 0 (by decide) i hi
    simpa using h

/-- Closed instance of the wrapped-cumulative-sum theorem on the overflowing
glyph stream of c6Font. -/
theorem c6_coordinate_decoding_witness :
    (readCoords c6Font 0x02 0x10 [1, 1] 16 0).1.getD 1 0 =
      wrap16 (((deltaListSpec c6Font 0x02 0x10 [1, 1] 16).take 2).sum) ∧
    (readCoords c6Font 0x04 0x20 [1, 1] 20 0).1.getD 1 0 =
      wrap16 (((deltaListSpec c6Font 0x04 0x20 [1, 1] 20).take 2).sum) :=
  c6_coordinate_decoding c6Font [1, 1] 16 20 1 (by decide)

/-- C6 counterexample: in c6Font's simple glyph the X deltas are 30000 and
30000, whose plain cumulative sum is 60000, yet the decoded X of point 1 is
−5536 — the Int16Array store wrapped the running sum modulo 2^16. -/
theorem c6_wrap_counterexample :
    ((readSimpleOutline c6Font 0).points.getD 1 (0, 0)).1 = (-5536 : ℚ) ∧
    ((deltaListSpec c6Font 0x02 0x10 [1, 1] 16).take 2).sum = 60000 ∧
    (-5536 : ℤ) ≠ 60000 := by
  refine ⟨?_, by decide, by decide⟩
  norm_num [readSimpleOutline, readFlagsGo, readCoords, wrap16, c6Font, getI16, getU16, getU8]

/-- C1 (evaluation at the failing input): on cyclicFont, whose glyph 0 is a
compound glyph referencing itself, getGlyphOutline never completes no matter
how much call-stack budget it is given — the source performs no cycle
detection and recurses until the JS stack overflows, instead of failing with
a CompoundCycle error. -/
theorem c1_cycle_never_terminates : ∀ fuel, getGlyphOutlineF cyclicFont fuel 0 = none := by
  intro fuel
  induction fuel with
  | zero => rfl
  | succ n ih =>
    have hr : glyphRange cyclicFont 0 = some (64, 80) := by decide
    have hnc : getI16 cyclicFont 64 = -1 := by decide
    have hflags : getU16 cyclicFont 74 = 2 := by decide
    have hgid0 : getU16 cyclicFont 76 = 0 := by decide
    simp only [getGlyphOutlineF, hr]
    rw [if_neg (by decide : ¬ ((64:ℕ), (80:ℕ)).1 = ((64:ℕ), (80:ℕ)).2)]
    simp only [hnc]
    norm_num
    simp only [readCompoundOutline, hnc]
    norm_num
    simp only [readComponentsAux, hflags, hgid0, ih]

/-- C7: a glyph id inside [0, numGlyphs) whose loca range is empty decodes to
the empty outline (no points, no on-curve flags, no contours) without
failing, at any positive stack budget. -/
theorem c7_empty_range_gives_empty_outline (f : Font) (fuel gid n : ℕ) (L : List ℕ)
    (hn : numGlyphsF f = some n) (hgid : gid < n)
    (hglyf : (getTable f "glyf").isSome)
    (hloca : ensureLoca f = some L)
    (heq : L.getD gid 0 = L.getD (gid+1) 0) :
    getGlyphOutlineF f (fuel+1) gid = some emptyOutline := by
  obtain ⟨t, ht⟩ := Option.isSome_iff_exists.mp hglyf
  have hr : glyphRange f gid = some (t.offset + L.getD gid 0, t.offset + L.getD (gid+1) 0) := by
    simp [glyphRange, hn, hgid, ht, hloca]
  simp only [getGlyphOutlineF, hr]
  rw [if_pos (by rw [heq])]

/-- Closed instance: c7Font's glyph 0 has loca offsets 0 and 0, so its
outline is empty. -/
theorem c7_empty_range_witness :
    getGlyphOutlineF c7Font 1 0 = some emptyOutline :=
  c7_empty_range_gives_empty_outline c7Font 0 0 1 [0, 0] (by decide) (by decide)
    (by decide) (by decide) (by decide)

/-- The flattened points do not depend on the marker threshold (or on the
marker accumulator): omitting a contour's marker never removes its
vertices. -/
theorem flattenAll_points_indep (tol : ℚ) (pts : List (ℚ × ℚ)) (onC : List Bool) :
    ∀ (ends : List ℕ) (m n start : ℕ) (accPts : List (ℚ × ℚ)) (accEnds accEnds2 : List ℕ),
      (flattenAll tol m pts onC ends start accPts accEnds).points =
      (flattenAll tol n pts onC ends start accPts accEnds2).points := by
  intro ends
  induction ends with
  | nil => intro m n start accPts accEnds accEnds2; rfl
  | cons e rest ih =>
    intro m n start accPts accEnds accEnds2
    simp only [flattenAll]
    exact ih m n (e+1) _ _ _

/-- Raising the marker threshold only filters the recorded markers: the
stricter contour list is a sublist of the laxer one. -/
theorem flattenAll_contours_sublist (tol : ℚ) (pts : List (ℚ × ℚ)) (onC : List Bool) :
    ∀ (ends : List ℕ) (m n : ℕ), m ≤ n →
      ∀ (start : ℕ) (accPts : List (ℚ × ℚ)) (accEnds accEnds2 : List ℕ),
        accEnds2.Sublist accEnds →
        (flattenAll tol n pts onC ends start accPts accEnds2).contours.Sublist
          (flattenAll tol m pts onC ends start accPts accEnds).contours := by
  intro ends
  induction ends with
  | nil => intro m n hmn start accPts accEnds accEnds2 hsub; exact hsub
  | cons e rest ih =>
    intro m n hmn start accPts accEnds accEnds2 hsub
    simp only [flattenAll]
    apply ih m n hmn (e+1)
    by_cases h1 : n ≤ (flattenContour tol pts onC start (e + 1 - start)).length
    · rw [if_pos h1, if_pos (le_trans hmn h1)]
      exact hsub.append (List.Sublist.refl _)
    · rw [if_neg h1]
      by_cases h2 : m ≤ (flattenContour tol pts onC start (e + 1 - start)).length
      · rw [if_pos h2]
        exact hsub.trans (List.sublist_append_left _ _)
      · rw [if_neg h2]; exact hsub

/-- C10: a contour-end marker is recorded only past the per-variant point
threshold while the contour's vertices always remain: at a common tolerance
the threshold-3 output has the same points as the threshold-2 output and its
contour list is a sublist of it; a one-point contour yields two vertices and
no marker in the stencil-cover variant (non-empty points with an empty
contour list) but a marker in the wireframe variant; and on a two-contour
outline whose second contour flattens to two points, the stencil-cover
contour list [3] ends below points.length − 1 = 5. -/
theorem c10_marker_threshold :
    (∀ (tol : ℚ) (o : Outline),
      (flattenAll tol 3 o.points o.onCurve o.contours 0 [] []).points =
      (flattenAll tol 2 o.points o.onCurve o.contours 0 [] []).points) ∧
    (∀ (tol : ℚ) (o : Outline),
      (flattenAll tol 3 o.points o.onCurve o.contours 0 [] []).contours.Sublist
        (flattenAll tol 2 o.points o.onCurve o.contours 0 [] []).contours) ∧
    (outlineToPolylineSC ⟨[(0, 0)], [true], [0]⟩).points.length = 2 ∧
    (outlineToPolylineSC ⟨[(0, 0)], [true], [0]⟩).contours = [] ∧
    (outlineToPolylineTTF ⟨[(0, 0)], [true], [0]⟩).contours = [1] ∧
    (outlineToPolylineSC ⟨[(0, 0), (10, 0), (0, 10), (20, 20)],
        [true, true, true, true], [2, 3]⟩).contours = [3] ∧
    (outlineToPolylineSC ⟨[(0, 0), (10, 0), (0, 10), (20, 20)],
        [true, true, true, true], [2, 3]⟩).points.length = 6 ∧
    3 < (outlineToPolylineSC ⟨[(0, 0), (10, 0), (0, 10), (20, 20)],
        [true, true, true, true], [2, 3]⟩).points.length - 1 := by
  refine ⟨fun tol o => flattenAll_points_indep tol o.points o.onCurve o.contours 3 2 0 [] [] [],
    fun tol o => flattenAll_contours_sublist tol o.points o.onCurve o.contours 2 3
      (by omega) 0 [] [] [] (List.Sublist.refl _),
    ?_, ?_, ?_, ?_, ?_, ?_⟩
  · decide
  · decide
  · decide
  · decide
  · decide
  · decide

/-- The delta loop yields one value per flag. -/
theorem readCoords_length (f : Font) (byteBit signBit : ℕ) :
    ∀ (flags : List ℕ) (p : ℕ) (prev : ℤ),
      (readCoords f byteBit signBit flags p prev).1.length = flags.length := by
  intro flags
  induction flags with
  | nil => intro p prev; rfl
  | cons fl rest ih =>
    intro p prev
    simp only [readCoords]
    by_cases hA : fl &&& byteBit ≠ 0
    · rw [if_pos hA]; simp [ih]
    · rw [if_neg hA]
      by_cases hB : fl &&& signBit = 0
      · rw [if_pos hB]; simp [ih]
      · rw [if_neg hB]; simp [ih]

/-- C6 (amended) at the readSimpleOutline level: point i of a decoded simple
glyph is the pair of wrapped cumulative sums of the claim's per-point X and Y
deltas (bits 0x02/0x10 and 0x04/0x20), starting at 0, with every running sum
reduced to signed 16 bits by the Int16Array stores.  FLGS, pX and pY name the
decoded flag stream, and the X and Y stream start positions, via hypotheses
restating the reads performed inside readSimpleOutline. -/
theorem c6_simple_glyph_decoding (f : Font) (gStart i : ℕ)
    (FLGS : List ℕ) (pX pY : ℕ)
    (hfl : readFlagsGo f
        ((((List.range (getI16 f gStart).toNat).map fun k =>
            getU16 f (gStart + 2 + 8 + 2 * k)).getLast?.getD 0) + 1)
        (gStart + 2 + 8 + 2 * (getI16 f gStart).toNat + 2 +
          getU16 f (gStart + 2 + 8 + 2 * (getI16 f gStart).toNat)) 0 0 = (FLGS, pX))
    (hpy : (readCoords f 0x02 0x10 FLGS pX 0).2 = pY)
    (hi : i < FLGS.length) :
    (readSimpleOutline f gStart).points.getD i (0, 0) =
      ((wrap16 (((deltaListSpec f 0x02 0x10 FLGS pX).take (i+1)).sum) : ℚ),
       (wrap16 (((deltaListSpec f 0x04 0x20 FLGS pY).take (i+1)).sum) : ℚ)) := by
  have hx := readCoords_cumsum f 0x02 0x10 FLGS pX 0 (by decide) i hi
  have hy := readCoords_cumsum f 0x04 0x20 FLGS pY 0 (by decide) i hi
  have hxlen := readCoords_length f 0x02 0x10 FLGS pX 0
  have hylen := readCoords_length f 0x04 0x20 FLGS pY 0
  have hix : i < (readCoords f 0x02 0x10 FLGS pX 0).1.length := by omega
  have hiy : i < (readCoords f 0x04 0x20 FLGS pY 0).1.length := by omega
  have hxe : (readCoords f 0x02 0x10 FLGS pX 0).1[i] =
      wrap16 (((deltaListSpec f 0x02 0x10 FLGS pX).take (i+1)).sum) := by
    rw [← List.getD_eq_getElem _ 0 hix]
    simpa using hx
  have hye : (readCoords f 0x04 0x20 FLGS pY 0).1[i] =
      wrap16 (((deltaListSpec f 0x04 0x20 FLGS pY).take (i+1)).sum) := by
    rw [← List.getD_eq_getElem _ 0 hiy]
    simpa using hy
  simp only [readSimpleOutline, hfl]
  rw [hpy]
  have hi2 : i < (List.zipWith (fun (x y : ℤ) => ((x : ℚ), (y : ℚ)))
      (readCoords f 0x02 0x10 FLGS pX 0).1 (readCoords f 0x04 0x20 FLGS pY 0).1).length := by
    rw [List.length_zipWith]; omega
  rw [List.getD_eq_getElem _ _ hi2, List.getElem_zipWith]
  rw [hxe, hye]

/-- Closed instance on c6Font: point 1 of the decoded glyph is the pair of
wrapped delta sums (−5536, 0). -/
theorem c6_simple_glyph_decoding_witness :
    (readSimpleOutline c6Font 0).points.getD 1 (0, 0) =
      ((wrap16 (((deltaListSpec c6Font 0x02 0x10 [1, 1] 16).take 2).sum) : ℚ),
       (wrap16 (((deltaListSpec c6Font 0x04 0x20 [1, 1] 20).take 2).sum) : ℚ)) :=
  c6_simple_glyph_decoding c6Font 0 1 [1, 1] 16 20 (by decide) (by decide) (by decide)
